import Mathlib

/-!
# SEA codec decoder: a shallow embedding of src/c/sea.h

This file embeds the decoder core of the SEA ("Simple Embedded Audio") codec,
as implemented in the C header src/c/sea.h, and proves properties of it.

Modelling conventions:
* Bytes are natural numbers; every dereference of a uint8_t applies % 256,
  mirroring the width of the C type.
* Machine integers use Nat and Int. The uint32 arithmetic performed by the
  decoder never exceeds 2^32 for header-bounded inputs (frames per chunk is a
  uint16, channels a uint8, bit widths are nibbles), so no explicit wrap is
  inserted; signed int32 overflow is undefined behavior in C, and the int32
  LMS arithmetic is modelled on exact integers.
* The C code reads through raw pointers with no bounds checks. A read past
  the end of the input buffer is undefined behavior; the model makes that
  observable as the distinguished outcome CResult.ub. Likewise an integer
  division by zero is undefined behavior, made observable as CResult.divZero.
  A nonzero return code of the C function becomes CResult.err.
* Arithmetic right shift on signed values ( >> 13, >> 4 ) is floor division;
  Int division in Lean is Euclidean division, which for a positive divisor
  agrees with floor division, so it is used directly.
* The dequantization table entries are computed in the C with binary32
  floating point (powf / floorf / roundf). Floating point is outside this
  integer model, so the table builder is parameterized by an abstract entry
  function v standing for fun s q => (int32_t) roundf (scale_factors[s] * dqt[q]).
  None of the properties proved here depend on the numeric entries.
-/

/-- Outcome of running a piece of the C decoder: a normal result, a nonzero
error return code, an out-of-bounds access (undefined behavior), or an
integer division by zero (undefined behavior). -/
inductive CResult (α : Type) where
  | ok : α → CResult α
  | err : Nat → CResult α
  | ub : CResult α
  | divZero : CResult α
deriving DecidableEq, Repr

def CResult.bind {α β : Type} : CResult α → (α → CResult β) → CResult β
  | .ok a, f => f a
  | .err n, _ => .err n
  | .ub, _ => .ub
  | .divZero, _ => .divZero

instance : Monad CResult where
  pure := .ok
  bind := CResult.bind

/-- C read_u8: dereference the cursor and advance one byte. Reading past the
end of the buffer is undefined behavior (ub). The % 256 reflects the uint8_t
type of the pointee. -/
def read_u8 : List Nat → CResult (Nat × List Nat)
  | [] => .ub
  | b :: rest => .ok (b % 256, rest)

/-- Reinterpret a value in [0, 65536) as a signed int16 (two's complement),
as the C assignment of `buf[0] | (buf[1] << 8)` to an int16_t does. -/
def toI16 (u : Nat) : Int :=
  if u % 65536 < 32768 then (u % 65536 : Nat) else (u % 65536 : Nat) - 65536

/-- C read_i16_le: two little-endian bytes into an int16_t. -/
def read_i16_le : List Nat → CResult (Int × List Nat)
  | b0 :: b1 :: rest => .ok (toI16 ((b0 % 256) ||| ((b1 % 256) <<< 8)), rest)
  | _ => .ub

/-- C read_u16_le: two little-endian bytes into a uint16_t. -/
def read_u16_le : List Nat → CResult (Nat × List Nat)
  | b0 :: b1 :: rest => .ok ((b0 % 256) ||| ((b1 % 256) <<< 8), rest)
  | _ => .ub

/-- C read_u32_le: four little-endian bytes into a uint32_t. -/
def read_u32_le : List Nat → CResult (Nat × List Nat)
  | b0 :: b1 :: b2 :: b3 :: rest =>
    .ok ((b0 % 256) ||| ((b1 % 256) <<< 8) ||| ((b2 % 256) <<< 16) ||| ((b3 % 256) <<< 24), rest)
  | _ => .ub

/-- Consume n bytes from the input. In the C, sea_read_unpack_bits performs
bytes_to_read successive read_u8 calls on the shared cursor; taking the n
bytes up front is equivalent, and fewer than n remaining bytes means the C
reads past the end of the buffer (ub). -/
def readBytes (n : Nat) (l : List Nat) : CResult (List Nat × List Nat) :=
  if n ≤ l.length then .ok (l.take n, l.drop n) else .ub

/-- The MASKS table of sea_read_unpack_bits: { 0, 1, 3, 7, 15, 31, 63, 127, 255 }. -/
def MASKS : List Nat := [0, 1, 3, 7, 15, 31, 63, 127, 255]

/-- The inner while loop of sea_read_unpack_bits, with an explicit iteration
budget (each iteration lowers bits_stored by bit_size >= 1, so a budget of
bits_stored is enough; see unpackWhile_eq for the loop-shaped equation):
while bits_stored >= bit_size, emit
(v >> (bits_stored - bit_size)) & MASKS[bit_size] and decrement bits_stored
by bit_size. Returns the emitted values and the final bits_stored.
(For bit_size = 0 the C loop never terminates; this function is only applied
with bit_size >= 1, see sea_read_chunk.) -/
def unpackWhileF (bit_size v : Nat) : Nat → Nat → List Nat × Nat
  | 0, bits_stored => ([], bits_stored)
  | fuel + 1, bits_stored =>
    if 0 < bit_size ∧ bit_size ≤ bits_stored then
      let rest := unpackWhileF bit_size v fuel (bits_stored - bit_size)
      (((v >>> (bits_stored - bit_size)) &&& MASKS.getD bit_size 0) :: rest.1, rest.2)
    else ([], bits_stored)

/-- The inner while loop of sea_read_unpack_bits (see unpackWhileF). -/
def unpackWhile (bit_size v bits_stored : Nat) : List Nat × Nat :=
  unpackWhileF bit_size v bits_stored bits_stored

/-- The byte loop of sea_read_unpack_bits, carrying (bits_stored, carry):
v = (carry << 8) | byte; bits_stored += 8; run the while loop;
carry = v & ((1 << bits_stored) - 1). -/
def unpackGo (bit_size : Nat) : List Nat → Nat → Nat → List Nat
  | [], _, _ => []
  | b :: rest, bits_stored, carry =>
    let v := (carry <<< 8) ||| (b % 256)
    let r := unpackWhile bit_size v (bits_stored + 8)
    r.1 ++ unpackGo bit_size rest r.2 (v &&& ((1 <<< r.2) - 1))

/-- C sea_read_unpack_bits, as a pure function from the consumed bytes to the
emitted values (the cursor handling is in readBytes). -/
def sea_read_unpack_bits (bit_size : Nat) (bytes : List Nat) : List Nat :=
  unpackGo bit_size bytes 0 0

/-- C div_ceil: (a + b - 1) / b. Division by zero is undefined behavior. -/
def div_ceil (a b : Nat) : CResult Nat :=
  if b = 0 then .divZero else .ok ((a + b - 1) / b)

/-- The flat dequantization table filled by alloc_prepare_dqt: for each
scale factor s, for each residual index q, the two entries val, -val where
val abstracts (int32_t) roundf (scale_factors[s] * dqt[q]). -/
def dqtTable (v : Nat → Nat → Int) (scale_factor_bits residual_bits : Nat) : List Int :=
  (List.range (2 ^ scale_factor_bits)).flatMap fun s =>
    (List.range (2 ^ (residual_bits - 1))).flatMap fun q => [v s q, -(v s q)]

/-- C alloc_prepare_dqt. For residual_bits = 0 the C computes
1 << (residual_bits - 1) with a wrapped uint32 shift amount and indexes
IDEAL_POW_FACTOR[residual_bits - 1] far out of bounds; for residual_bits > 8
it indexes the 8-entry IDEAL_POW_FACTOR past its end: both are undefined
behavior (ub). Otherwise it returns the table and SEA_DQT_MULTIPLIER
( = dqt_len * 2). The float-derived entries are abstracted by v, see above. -/
def alloc_prepare_dqt (v : Nat → Nat → Int) (scale_factor_bits residual_bits : Nat) :
    CResult (List Int × Nat) :=
  if residual_bits = 0 ∨ 8 < residual_bits then .ub
  else .ok (dqtTable v scale_factor_bits residual_bits, 2 ^ (residual_bits - 1) * 2)

/-- C clamp_i16: saturate an int32 to [-32768, 32767]. -/
def clamp_i16 (value : Int) : Int :=
  if value > 32767 then 32767
  else if value < -32768 then -32768
  else value

/-- Per-channel LMS state: history[0..3] and weights[0..3], int32 each. -/
structure SEA_LMS where
  h0 : Int
  h1 : Int
  h2 : Int
  h3 : Int
  w0 : Int
  w1 : Int
  w2 : Int
  w3 : Int
deriving DecidableEq, Repr

instance : Inhabited SEA_LMS := ⟨⟨0, 0, 0, 0, 0, 0, 0, 0⟩⟩

/-- C sea_lms_predict: (sum of weights[i] * history[i]) >> 13, an arithmetic
(sign-preserving) shift, i.e. floor division by 8192. -/
def sea_lms_predict (lms : SEA_LMS) : Int :=
  (lms.w0 * lms.h0 + lms.w1 * lms.h1 + lms.w2 * lms.h2 + lms.w3 * lms.h3) / 8192

/-- C sea_lms_update: delta = residual >> 4 (arithmetic shift, floor division
by 16); weights[i] moves by -delta where history[i] < 0 and by +delta
otherwise; then history shifts left and history[3] takes the sample. -/
def sea_lms_update (lms : SEA_LMS) (sample : Int) (residual : Int) : SEA_LMS :=
  let delta := residual / 16
  { h0 := lms.h1
    h1 := lms.h2
    h2 := lms.h3
    h3 := sample
    w0 := if lms.h0 < 0 then lms.w0 - delta else lms.w0 + delta
    w1 := if lms.h1 < 0 then lms.w1 - delta else lms.w1 + delta
    w2 := if lms.h2 < 0 then lms.w2 - delta else lms.w2 + delta
    w3 := if lms.h3 < 0 then lms.w3 - delta else lms.w3 + delta }

/-- One channel of LMS seeding in sea_read_chunk: 4 int16 history values then
4 int16 weight values, little-endian. -/
def read_lms_channel (input : List Nat) : CResult (SEA_LMS × List Nat) := do
  let (a0, l) ← read_i16_le input
  let (a1, l) ← read_i16_le l
  let (a2, l) ← read_i16_le l
  let (a3, l) ← read_i16_le l
  let (b0, l) ← read_i16_le l
  let (b1, l) ← read_i16_le l
  let (b2, l) ← read_i16_le l
  let (b3, l) ← read_i16_le l
  pure (⟨a0, a1, a2, a3, b0, b1, b2, b3⟩, l)

/-- The LMS seeding loop of sea_read_chunk, one block per channel in channel
order. -/
def readLMSseeds : Nat → List Nat → CResult (List SEA_LMS × List Nat)
  | 0, l => .ok ([], l)
  | n + 1, l => do
    let (s, l) ← read_lms_channel l
    let (rest, l) ← readLMSseeds n l
    pure (s :: rest, l)

/-- One iteration of the emit loop body of sea_read_chunk, at scale factor
offset so, frame index fi, channel index ci. Array reads are getD with
default 0: all indices stay inside the arrays the C allocates except the
residual reads past frames_in_chunk * channels (see the chunk emit count
results), where the C reads unspecified heap memory whose value none of the
proved properties depend on. -/
def sea_emit_step (DQT : List Int) (M : Nat) (sfs res : List Nat)
    (scale_factor_frames channels : Nat)
    (st : List SEA_LMS × List Int) (it : Nat × Nat × Nat) : List SEA_LMS × List Int :=
  let so := it.1
  let fi := it.2.1
  let ci := it.2.2
  let lms := st.1.getD ci default
  let scale_factor := sfs.getD (so + ci) 0
  let predicted := sea_lms_predict lms
  let quantized := res.getD (so * scale_factor_frames + fi * channels + ci) 0
  let dequantized := DQT.getD (scale_factor * M + quantized) 0
  let reconstructed := clamp_i16 (predicted + dequantized)
  (st.1.set ci (sea_lms_update lms reconstructed dequantized), st.2 ++ [reconstructed])

/-- The iteration sequence of the triple emit loop of sea_read_chunk:
scale_factor_offset runs over 0, channels, 2*channels, ... while less than
scale_factor_items = nGroups * channels (so nGroups values g * channels);
frame_index over 0..scale_factor_frames; channel_index over 0..channels. -/
def chunkIters (nGroups scale_factor_frames channels : Nat) : List (Nat × Nat × Nat) :=
  (List.range nGroups).flatMap fun g =>
    (List.range scale_factor_frames).flatMap fun fi =>
      (List.range channels).map fun ci => (g * channels, fi, ci)

/-- C sea_read_chunk: parse the 4-byte subheader, build the DQT, seed the
per-channel LMS states, unpack scale factors and residuals, and run the emit
loop. Returns the emitted samples and the remaining input. -/
def sea_read_chunk (v : Nat → Nat → Int) (channels frames_in_this_chunk : Nat)
    (input : List Nat) : CResult (List Int × List Nat) := do
  let (ctype, l) ← read_u8 input
  if ctype ≠ 1 then .err 1 else do
  let (sr_byte, l) ← read_u8 l
  let scale_factor_bits := sr_byte >>> 4
  let residual_size := sr_byte &&& 15
  let (scale_factor_frames, l) ← read_u8 l
  let (reserved, l) ← read_u8 l
  if reserved ≠ 0x5A then .err 1 else do
  let DQTM ← alloc_prepare_dqt v scale_factor_bits residual_size
  let (lms0, l) ← readLMSseeds channels l
  let nGroups ← div_ceil frames_in_this_chunk scale_factor_frames
  let scale_factor_items := nGroups * channels
  let sfBytes ← div_ceil (scale_factor_items * scale_factor_bits) 8
  let (sfRaw, l) ← readBytes sfBytes l
  let sfs := sea_read_unpack_bits scale_factor_bits sfRaw
  let resBytes ← div_ceil (frames_in_this_chunk * residual_size * channels) 8
  let (resRaw, l) ← readBytes resBytes l
  let res := sea_read_unpack_bits residual_size resRaw
  let out := ((chunkIters nGroups scale_factor_frames channels).foldl
    (sea_emit_step DQTM.1 DQTM.2 sfs res scale_factor_frames channels) (lms0, [])).2
  pure (out, l)

/-- The chunk loop of sea_decode: while read_frames < total_frames, decode a
chunk of min(frames_per_chunk, total_frames - read_frames) frames. When
frames_per_chunk = 0 and frames remain, the C loop makes no progress and
never terminates (ub). A nonzero chunk return code makes sea_decode return 2. -/
def sea_chunk_loopF (v : Nat → Nat → Int) (channels frames_per_chunk total_frames : Nat) :
    Nat → Nat → List Nat → CResult (List Int)
  | 0, _, _ => .ok []
  | fuel + 1, read_frames, input =>
    if read_frames < total_frames then
      if frames_per_chunk = 0 then .ub
      else
        let frames_in_chunk := min frames_per_chunk (total_frames - read_frames)
        match sea_read_chunk v channels frames_in_chunk input with
        | .ok (out, rest) =>
          match sea_chunk_loopF v channels frames_per_chunk total_frames fuel
              (read_frames + frames_in_chunk) rest with
          | .ok pcm => .ok (out ++ pcm)
          | .err n => .err n
          | .ub => .ub
          | .divZero => .divZero
        | .err _ => .err 2
        | .ub => .ub
        | .divZero => .divZero
    else .ok []

/-- The chunk loop of sea_decode (see sea_chunk_loopF; each iteration raises
read_frames by frames_in_chunk >= 1, so an iteration budget of
total_frames - read_frames is enough, and sea_chunk_loop_eq recovers the
loop-shaped equation). -/
def sea_chunk_loop (v : Nat → Nat → Int) (channels frames_per_chunk total_frames : Nat)
    (read_frames : Nat) (input : List Nat) : CResult (List Int) :=
  sea_chunk_loopF v channels frames_per_chunk total_frames
    (total_frames - read_frames) read_frames input

/-- C sea_decode (decoding pass, output buffer provided): parse the 22-byte
header, then run the chunk loop. Returns (sample_rate, channels, total_frames,
pcm samples).

Source bug: the C statement `encoded_ptr += metadata_len` advances the
pointer-to-pointer cursor variable instead of the byte cursor `*encoded_ptr`,
so the metadata blob is never skipped; when metadata_len > 0 every subsequent
read dereferences an invalid pointer, which is undefined behavior (ub).
(The probe pass with output == NULL returns right after the header and is
unaffected.) -/
def sea_decode (v : Nat → Nat → Int) (input : List Nat) :
    CResult (Nat × Nat × Nat × List Int) := do
  let (magic, l) ← read_u32_le input
  let (version, l) ← read_u8 l
  if magic ≠ 0x63616573 ∨ version ≠ 1 then .err 1 else do
  let (channels, l) ← read_u8 l
  let (_chunk_size, l) ← read_u16_le l
  let (frames_per_chunk, l) ← read_u16_le l
  let (sample_rate, l) ← read_u32_le l
  let (total_frames, l) ← read_u32_le l
  let (metadata_len, l) ← read_u32_le l
  if metadata_len ≠ 0 then .ub else
  match sea_chunk_loop v channels frames_per_chunk total_frames 0 l with
  | .ok pcm => .ok (sample_rate, channels, total_frames, pcm)
  | .err n => .err n
  | .ub => .ub
  | .divZero => .divZero

/-! ## Specification-side definitions

These definitions follow the words of the specification (MSB-first bit
streams, grouping into fixed-width values) and are used to state the claims
that relate the code to the bitstream discipline. -/

/-- The n low bits of v, most significant first. -/
def bitsMSB (n v : Nat) : List Bool :=
  (List.range n).map fun i => v.testBit (n - 1 - i)

/-- The value of a bit list read MSB-first. -/
def valOfBits : List Bool → Nat
  | [] => 0
  | b :: rest => (if b then 2 ^ rest.length else 0) + valOfBits rest

/-- The bitstream of a byte sequence: each byte contributes its 8 bits
MSB-first. -/
def bitsOfBytes (bytes : List Nat) : List Bool :=
  bytes.flatMap fun b => bitsMSB 8 b

/-- Cut a bitstream into consecutive n-bit groups, each read MSB-first as a
value; trailing bits fewer than n produce no value. Stated with an explicit
recursion budget (each step drops n >= 1 bits, so the length of the list is
enough; specGroupVals_eq recovers the direct equation). -/
def specGroupValsF (n : Nat) : Nat → List Bool → List Nat
  | 0, _ => []
  | fuel + 1, bits =>
    if 0 < n ∧ n ≤ bits.length then
      valOfBits (bits.take n) :: specGroupValsF n fuel (bits.drop n)
    else []

/-- Cut a bitstream into consecutive n-bit groups (see specGroupValsF). -/
def specGroupVals (n : Nat) (bits : List Bool) : List Nat :=
  specGroupValsF n bits.length bits

/-- Modelled from the spec: the encoder bit packer is not part of src/ (the
encoder is out of scope there); the spec defines the packing discipline as
the values written first to last, each MSB-first in bit_size bits, grouped
into bytes MSB-first, the final byte padded with zero bits. -/
def spec_pack_bits (bit_size : Nat) (vals : List Nat) : List Nat :=
  let bits := vals.flatMap fun x => bitsMSB bit_size x
  specGroupVals 8 (bits ++ List.replicate ((8 - bits.length % 8) % 8) false)

/-- A concrete stand-in for the abstract DQT entry function, used to evaluate
the decoder on concrete inputs (the zero table). -/
def dqtZero : Nat → Nat → Int := fun _ _ => 0

/-- A concrete injective-looking stand-in for the abstract DQT entry
function, used in witnesses where distinct entries matter. -/
def dqtTest : Nat → Nat → Int := fun s q => (s : Int) * 100 + (q : Int) + 1

/-! ## Basic lemmas about clamping and the emit loop -/

theorem clamp_i16_range (v : Int) : -32768 ≤ clamp_i16 v ∧ clamp_i16 v ≤ 32767 := by
  unfold clamp_i16
  split_ifs <;> omega

theorem emit_step_out (DQT : List Int) (M : Nat) (sfs res : List Nat) (sff ch : Nat)
    (st : List SEA_LMS × List Int) (it : Nat × Nat × Nat) :
    ∃ w : Int, (sea_emit_step DQT M sfs res sff ch st it).2 = st.2 ++ [clamp_i16 w] := by
  exact ⟨_, rfl⟩

theorem emit_fold_range (DQT : List Int) (M : Nat) (sfs res : List Nat) (sff ch : Nat)
    (iters : List (Nat × Nat × Nat)) (st : List SEA_LMS × List Int)
    (h0 : ∀ x ∈ st.2, -32768 ≤ x ∧ x ≤ 32767) :
    ∀ x ∈ (iters.foldl (sea_emit_step DQT M sfs res sff ch) st).2, -32768 ≤ x ∧ x ≤ 32767 := by
  induction iters generalizing st with
  | nil => simpa using h0
  | cons it rest ih =>
    intro x hx
    rw [List.foldl_cons] at hx
    refine ih (sea_emit_step DQT M sfs res sff ch st it) ?_ x hx
    intro y hy
    obtain ⟨w, hw⟩ := emit_step_out DQT M sfs res sff ch st it
    rw [hw] at hy
    rcases List.mem_append.mp hy with h | h
    · exact h0 y h
    · rcases List.mem_singleton.mp h with rfl
      exact clamp_i16_range w

theorem emit_fold_length (DQT : List Int) (M : Nat) (sfs res : List Nat) (sff ch : Nat)
    (iters : List (Nat × Nat × Nat)) (st : List SEA_LMS × List Int) :
    (iters.foldl (sea_emit_step DQT M sfs res sff ch) st).1.length = st.1.length := by
  induction iters generalizing st with
  | nil => rfl
  | cons it rest ih =>
    rw [List.foldl_cons, ih]
    simp [sea_emit_step]

/-- C9: every sample pushed to the output by the chunk emit loop is the result
of clamp_i16 and lies in the signed 16-bit range [-32768, 32767]; clamp_i16
saturates to the endpoints when predicted + dequantized falls outside. -/
theorem C9_emitted_samples_in_i16_range
    (DQT : List Int) (M : Nat) (sfs res : List Nat) (sff ch : Nat)
    (iters : List (Nat × Nat × Nat)) (lms0 : List SEA_LMS) (x : Int) (w : Int)
    (hx : x ∈ (iters.foldl (sea_emit_step DQT M sfs res sff ch) (lms0, [])).2) :
    (-32768 ≤ x ∧ x ≤ 32767) ∧
    (32767 < w → clamp_i16 w = 32767) ∧
    (w < -32768 → clamp_i16 w = -32768) ∧
    (-32768 ≤ clamp_i16 w ∧ clamp_i16 w ≤ 32767) := by
  refine ⟨emit_fold_range DQT M sfs res sff ch iters (lms0, []) (by simp) x hx, ?_, ?_,
    clamp_i16_range w⟩
  · intro h; unfold clamp_i16; split_ifs <;> omega
  · intro h; unfold clamp_i16; split_ifs <;> omega

theorem C9_witness :
    ((0 : Int) ∈ (([(0, 0, 0)] : List (Nat × Nat × Nat)).foldl
      (sea_emit_step [] 0 [] [] 1 1) ([default], [])).2) ∧
    ((-32768 ≤ (0 : Int) ∧ (0 : Int) ≤ 32767) ∧
     (32767 < (40000 : Int) → clamp_i16 40000 = 32767) ∧
     ((40000 : Int) < -32768 → clamp_i16 40000 = -32768) ∧
     (-32768 ≤ clamp_i16 40000 ∧ clamp_i16 40000 ≤ 32767)) :=
  ⟨by decide, C9_emitted_samples_in_i16_range [] 0 [] [] 1 1 [(0, 0, 0)] [default] 0 40000
    (by decide)⟩

theorem getD_set_self {α : Type} [Inhabited α] (l : List α) (i : Nat) (a : α)
    (h : i < l.length) : (l.set i a).getD i default = a := by
  simp [List.getD_eq_getElem?_getD, List.getElem?_set_self h]

theorem emit_step_h3 (DQT : List Int) (M : Nat) (sfs res : List Nat) (sff ch : Nat)
    (st : List SEA_LMS × List Int) (so fi ci : Nat) (hci : ci < st.1.length) :
    (((sea_emit_step DQT M sfs res sff ch st (so, fi, ci)).1.getD ci default).h3 =
      (sea_emit_step DQT M sfs res sff ch st (so, fi, ci)).2.getLastD 0) ∧
    ((sea_emit_step DQT M sfs res sff ch st (so, fi, ci)).2.getLastD 0 =
      clamp_i16 (sea_lms_predict (st.1.getD ci default) +
        DQT.getD ((sfs.getD (so + ci) 0) * M + res.getD (so * sff + fi * ch + ci) 0) 0)) := by
  unfold sea_emit_step
  simp only [List.getLastD_concat]
  constructor
  · rw [getD_set_self _ _ _ hci]
    rfl
  · trivial

/-- C7: throughout the per-chunk emit loop, immediately after each
sea_lms_update the updated channel history[3] equals the clamped
reconstructed sample just appended to the output. Stated for an arbitrary
iteration prefix followed by one more iteration (so, fi, ci), which covers
every point of the loop. -/
theorem C7_history3_equals_emitted
    (DQT : List Int) (M : Nat) (sfs res : List Nat) (sff ch : Nat)
    (lms0 : List SEA_LMS) (out0 : List Int) (iters : List (Nat × Nat × Nat))
    (so fi ci : Nat) (hlen : lms0.length = ch) (hci : ci < ch) :
    ((((iters ++ [(so, fi, ci)]).foldl (sea_emit_step DQT M sfs res sff ch)
        (lms0, out0)).1.getD ci default).h3 =
      ((iters ++ [(so, fi, ci)]).foldl (sea_emit_step DQT M sfs res sff ch)
        (lms0, out0)).2.getLastD 0) ∧
    (((iters ++ [(so, fi, ci)]).foldl (sea_emit_step DQT M sfs res sff ch)
        (lms0, out0)).2.getLastD 0 =
      clamp_i16 (sea_lms_predict
          ((iters.foldl (sea_emit_step DQT M sfs res sff ch) (lms0, out0)).1.getD ci default) +
        DQT.getD ((sfs.getD (so + ci) 0) * M + res.getD (so * sff + fi * ch + ci) 0) 0)) := by
  rw [List.foldl_append]
  simp only [List.foldl_cons, List.foldl_nil]
  have hmid : ci < (iters.foldl (sea_emit_step DQT M sfs res sff ch) (lms0, out0)).1.length := by
    rw [emit_fold_length]
    simpa [hlen] using hci
  exact emit_step_h3 DQT M sfs res sff ch _ so fi ci hmid

theorem C7_witness :
    (([default] : List SEA_LMS).length = 1 ∧ 0 < 1) ∧
    (((([] ++ [((0 : Nat), (0 : Nat), (0 : Nat))]).foldl
        (sea_emit_step [3] 0 [] [] 1 1) ([default], [])).1.getD 0 default).h3 =
      (([] ++ [((0 : Nat), (0 : Nat), (0 : Nat))]).foldl
        (sea_emit_step [3] 0 [] [] 1 1) ([default], [])).2.getLastD 0) :=
  ⟨⟨by decide, by decide⟩,
    (C7_history3_equals_emitted [3] 0 [] [] 1 1 [default] [] [] 0 0 0 (by decide) (by decide)).1⟩

/-! ## C6: LMS weight movement -/

/-- C6 counterexample: with history[0] = 1 and the non-zero residual 1, the
demanded direction is sign(1) * sign(1) = 1, but delta = 1 >> 4 = 0 and
weights[0] does not move at all. -/
theorem C6_counterexample :
    Int.sign ((sea_lms_update ⟨1, 1, 1, 1, 0, 0, 0, 0⟩ 0 1).w0 -
        (SEA_LMS.mk 1 1 1 1 0 0 0 0).w0) ≠
      Int.sign (SEA_LMS.mk 1 1 1 1 0 0 0 0).h0 * Int.sign (1 : Int) := by
  decide

/-- C6 (amended): sea_lms_update moves weights[i] by exactly
(history[i] < 0 ? - : +) (residual >> 4), the shift being floor division by
16; whenever that delta is non-zero (residual < 0 or residual >= 16) and
history[i] is non-zero, the move is in the direction
sign(history[i]) * sign(residual); history[i] = 0 counts as non-negative and
moves the weight by +delta. -/
theorem C6_weight_update_direction (l : SEA_LMS) (s r : Int) (hr : r < 0 ∨ 16 ≤ r) :
    ((sea_lms_update l s r).w0 - l.w0 = (if l.h0 < 0 then -(r / 16) else r / 16) ∧
      (l.h0 ≠ 0 → Int.sign ((sea_lms_update l s r).w0 - l.w0) = Int.sign l.h0 * Int.sign r)) ∧
    ((sea_lms_update l s r).w1 - l.w1 = (if l.h1 < 0 then -(r / 16) else r / 16) ∧
      (l.h1 ≠ 0 → Int.sign ((sea_lms_update l s r).w1 - l.w1) = Int.sign l.h1 * Int.sign r)) ∧
    ((sea_lms_update l s r).w2 - l.w2 = (if l.h2 < 0 then -(r / 16) else r / 16) ∧
      (l.h2 ≠ 0 → Int.sign ((sea_lms_update l s r).w2 - l.w2) = Int.sign l.h2 * Int.sign r)) ∧
    ((sea_lms_update l s r).w3 - l.w3 = (if l.h3 < 0 then -(r / 16) else r / 16) ∧
      (l.h3 ≠ 0 → Int.sign ((sea_lms_update l s r).w3 - l.w3) = Int.sign l.h3 * Int.sign r)) := by
  have key : ∀ h w : Int, h ≠ 0 →
      Int.sign ((if h < 0 then w - r / 16 else w + r / 16) - w) = Int.sign h * Int.sign r := by
    intro h w hh
    rcases hr with hneg | hpos
    · have hd : r / 16 ≤ -1 := by omega
      rcases lt_or_gt_of_ne hh with hlt | hgt
      · rw [if_pos hlt, Int.sign_eq_neg_one_of_neg hlt, Int.sign_eq_neg_one_of_neg hneg]
        have : 0 < w - r / 16 - w := by omega
        rw [Int.sign_eq_one_of_pos this]; ring
      · rw [if_neg (by omega), Int.sign_eq_one_of_pos hgt, Int.sign_eq_neg_one_of_neg hneg]
        have : w + r / 16 - w < 0 := by omega
        rw [Int.sign_eq_neg_one_of_neg this]; ring
    · have hd : 1 ≤ r / 16 := by omega
      have hrpos : (0 : Int) < r := by omega
      rcases lt_or_gt_of_ne hh with hlt | hgt
      · rw [if_pos hlt, Int.sign_eq_neg_one_of_neg hlt, Int.sign_eq_one_of_pos hrpos]
        have : w - r / 16 - w < 0 := by omega
        rw [Int.sign_eq_neg_one_of_neg this]; ring
      · rw [if_neg (by omega), Int.sign_eq_one_of_pos hgt, Int.sign_eq_one_of_pos hrpos]
        have : 0 < w + r / 16 - w := by omega
        rw [Int.sign_eq_one_of_pos this]; ring
  refine ⟨⟨?_, key l.h0 l.w0⟩, ⟨?_, key l.h1 l.w1⟩, ⟨?_, key l.h2 l.w2⟩, ⟨?_, key l.h3 l.w3⟩⟩ <;>
    · unfold sea_lms_update
      split_ifs <;> ring

theorem C6_witness :
    (((-32 : Int) < 0 ∨ 16 ≤ (-32 : Int)) ∧
      ((sea_lms_update ⟨1, -2, 0, 3, 10, 20, 30, 40⟩ 7 (-32)).w0 - 10 = -2 ∧
        ((1 : Int) ≠ 0 →
          Int.sign ((sea_lms_update ⟨1, -2, 0, 3, 10, 20, 30, 40⟩ 7 (-32)).w0 - 10) =
            Int.sign (1 : Int) * Int.sign (-32 : Int)))) := by
  constructor
  · exact Or.inl (by decide)
  · have h := (C6_weight_update_direction ⟨1, -2, 0, 3, 10, 20, 30, 40⟩ 7 (-32)
      (Or.inl (by decide))).1
    simpa using h

/-! ## C8: structure of the dequantization table -/

theorem getD_append_left {β : Type} (l1 l2 : List β) (i : Nat) (d : β) (h : i < l1.length) :
    (l1 ++ l2).getD i d = l1.getD i d := by
  simp [List.getD_eq_getElem?_getD, List.getElem?_append_left h]

theorem getD_append_right {β : Type} (l1 l2 : List β) (i : Nat) (d : β) (h : l1.length ≤ i) :
    (l1 ++ l2).getD i d = l2.getD (i - l1.length) d := by
  simp [List.getD_eq_getElem?_getD, List.getElem?_append_right h]

theorem flatMap_range_length {β : Type} (f : Nat → List β) (n m : Nat)
    (h : ∀ t, t < n → (f t).length = m) :
    ((List.range n).flatMap f).length = n * m := by
  induction n with
  | zero => simp
  | succ k ih =>
    rw [List.range_succ, List.flatMap_append]
    simp only [List.length_append, List.flatMap_cons, List.flatMap_nil, List.append_nil]
    rw [ih (fun t ht => h t (by omega)), h k (by omega)]
    ring

theorem flatMap_range_getD {β : Type} (f : Nat → List β) (n m s j : Nat) (d : β)
    (h : ∀ t, t < n → (f t).length = m) (hs : s < n) (hj : j < m) :
    ((List.range n).flatMap f).getD (s * m + j) d = (f s).getD j d := by
  induction n with
  | zero => omega
  | succ k ih =>
    rw [List.range_succ, List.flatMap_append]
    have hlen : ((List.range k).flatMap f).length = k * m :=
      flatMap_range_length f k m (fun t ht => h t (by omega))
    by_cases hsk : s < k
    · have hidx : s * m + j < k * m := by
        have h1 : s * m + m ≤ k * m := by
          have := Nat.mul_le_mul_right m (show s + 1 ≤ k by omega)
          simpa [Nat.succ_mul] using this
        omega
      rw [getD_append_left _ _ _ _ (by omega)]
      exact ih (fun t ht => h t (by omega)) hsk
    · have hsk' : s = k := by omega
      subst hsk'
      rw [getD_append_right _ _ _ _ (by omega)]
      rw [hlen]
      simp [Nat.add_sub_cancel_left]

theorem dqtTable_getD (v : Nat → Nat → Int) (sfb rb s k : Nat)
    (hs : s < 2 ^ sfb) (hk : k < 2 ^ (rb - 1)) :
    (dqtTable v sfb rb).getD (s * (2 ^ (rb - 1) * 2) + 2 * k) 0 = v s k ∧
    (dqtTable v sfb rb).getD (s * (2 ^ (rb - 1) * 2) + (2 * k + 1)) 0 = -(v s k) := by
  unfold dqtTable
  have hrow : ∀ t, t < 2 ^ sfb →
      ((List.range (2 ^ (rb - 1))).flatMap fun q => [v t q, -(v t q)]).length =
        2 ^ (rb - 1) * 2 :=
    fun t _ => flatMap_range_length _ _ 2 (fun _ _ => rfl)
  constructor
  · rw [flatMap_range_getD _ _ _ _ _ _ hrow hs (by omega)]
    have h2 : 2 * k = k * 2 + 0 := by ring
    rw [h2, flatMap_range_getD (fun q => [v s q, -(v s q)]) (2 ^ (rb - 1)) 2 k 0 0
      (fun _ _ => rfl) hk (by omega)]
    rfl
  · rw [flatMap_range_getD _ _ _ _ _ _ hrow hs (by omega)]
    have h2 : 2 * k + 1 = k * 2 + 1 := by ring
    rw [h2, flatMap_range_getD (fun q => [v s q, -(v s q)]) (2 ^ (rb - 1)) 2 k 1 0
      (fun _ _ => rfl) hk (by omega)]
    rfl

/-- C8: for every abstract entry function and all parameters with
residual_bits in [1,8], alloc_prepare_dqt succeeds and its table pairs
entries as (+val, -val): entry [s][2k] is the negation of entry [s][2k+1]
for every row s < 2^scale_factor_bits and every k < 2^(residual_bits-1). -/
theorem C8_dqt_symmetry (v : Nat → Nat → Int) (sfb rb s k : Nat)
    (hrb1 : 1 ≤ rb) (hrb8 : rb ≤ 8) (hs : s < 2 ^ sfb) (hk : k < 2 ^ (rb - 1)) :
    alloc_prepare_dqt v sfb rb = .ok (dqtTable v sfb rb, 2 ^ (rb - 1) * 2) ∧
    (dqtTable v sfb rb).getD (s * (2 ^ (rb - 1) * 2) + 2 * k) 0 =
      -((dqtTable v sfb rb).getD (s * (2 ^ (rb - 1) * 2) + (2 * k + 1)) 0) := by
  obtain ⟨h1, h2⟩ := dqtTable_getD v sfb rb s k hs hk
  refine ⟨?_, ?_⟩
  · unfold alloc_prepare_dqt
    rw [if_neg (by omega)]
  · rw [h1, h2, neg_neg]

theorem C8_witness :
    (1 ≤ 3 ∧ 3 ≤ 8 ∧ 1 < 2 ^ 1 ∧ 2 < 2 ^ (3 - 1)) ∧
    (alloc_prepare_dqt dqtTest 1 3 = .ok (dqtTable dqtTest 1 3, 2 ^ (3 - 1) * 2) ∧
      (dqtTable dqtTest 1 3).getD (1 * (2 ^ (3 - 1) * 2) + 2 * 2) 0 =
        -((dqtTable dqtTest 1 3).getD (1 * (2 ^ (3 - 1) * 2) + (2 * 2 + 1)) 0)) :=
  ⟨by decide, C8_dqt_symmetry dqtTest 1 3 1 2 (by decide) (by decide) (by decide) (by decide)⟩

/-! ## C1: the metadata skip -/

/-- C1: the C statement `encoded_ptr += metadata_len` advances the
pointer-to-pointer instead of the byte cursor, so on a stream whose header
declares metadata_len = 1 the decoder never reaches the chunk subheader at
offset 22 + metadata_len: every read after the header goes through an
invalid pointer (undefined behavior, ub in the model), for any metadata byte
m and any chunk bytes. -/
theorem C1_metadata_not_skipped (v : Nat → Nat → Int) (m : Nat) (rest : List Nat) :
    sea_decode v
      ([0x73, 0x65, 0x61, 0x63, 1, 1, 0, 0, 3, 0, 0x40, 0x1F, 0, 0, 3, 0, 0, 0, 1, 0, 0, 0] ++
        m :: rest) = .ub := by
  rfl

/-! ## C3: truncated input -/

/-- C3 counterexample: on the truncated one-byte input [0x73] the decoder
does not abort with a typed error: it reads past the end of the buffer
(undefined behavior, ub in the model), since no read is bounds-checked. -/
theorem C3_counterexample : sea_decode dqtZero [0x73] = .ub := by
  rfl

/-- C3 (amended): the decoder performs no bounds checking; a truncated input
makes it read past the end of the buffer (undefined behavior) rather than
abort with a typed error. In particular every input shorter than the five
bytes of magic plus version ends in the out-of-bounds read outcome, whatever
the byte values. -/
theorem C3_truncated_is_oob_not_error (v : Nat → Nat → Int) (input : List Nat)
    (h : input.length < 5) : sea_decode v input = .ub := by
  match input, h with
  | [], _ => rfl
  | [a], _ => rfl
  | [a, b], _ => rfl
  | [a, b, c], _ => rfl
  | [a, b, c, d], _ => rfl

theorem C3_witness :
    ([0x73, 0x65, 0x61].length < 5) ∧ sea_decode dqtZero [0x73, 0x65, 0x61] = .ub :=
  ⟨by decide, C3_truncated_is_oob_not_error dqtZero [0x73, 0x65, 0x61] (by decide)⟩

/-! ## C4: residual_bits out of range -/

/-- C4 counterexample: a chunk whose packed byte has low nibble
residual_bits = 0 (byte 0x10: scale_factor_bits = 1, residual_bits = 0) does
not fail with a typed InvalidParameters error: the C has no such check, and
alloc_prepare_dqt runs straight into undefined behavior (a wrapped shift
amount and an out-of-bounds IDEAL_POW_FACTOR index), modelled as ub. -/
theorem C4_counterexample : sea_read_chunk dqtZero 1 1 [1, 0x10, 7, 0x5A] = .ub := by
  rfl

/-- C4 (amended): the decoder has no InvalidParameters error at all. For
every chunk whose packed byte has low nibble residual_bits = 0 or > 8 (and
whose type and reserved bytes pass their checks), sea_read_chunk ends in
undefined behavior inside alloc_prepare_dqt - no dequantization table is
built, no samples are emitted, and no error code is returned. -/
theorem C4_bad_residual_bits_is_ub (v : Nat → Nat → Int) (ch fr sfb rb sffB : Nat)
    (rest : List Nat) (hsfb : sfb < 16) (hrb : rb < 16) (hbad : rb = 0 ∨ 8 < rb) :
    sea_read_chunk v ch fr (1 :: (16 * sfb + rb) :: sffB :: 0x5A :: rest) = .ub := by
  have hsr : 16 * sfb + rb < 256 := by omega
  have hmod : (16 * sfb + rb) % 256 = 16 * sfb + rb := Nat.mod_eq_of_lt hsr
  have hshift : (16 * sfb + rb) >>> 4 = sfb := by
    rw [Nat.shiftRight_eq_div_pow]
    omega
  have hand : (16 * sfb + rb) &&& 15 = rb := by
    have h := Nat.and_pow_two_sub_one_eq_mod (16 * sfb + rb) 4
    norm_num at h
    rw [h]
    omega
  have halloc : alloc_prepare_dqt v sfb rb = .ub := by
    unfold alloc_prepare_dqt
    exact if_pos hbad
  simp [sea_read_chunk, read_u8, bind, CResult.bind, hmod, hshift, hand, halloc]

theorem C4_witness :
    (1 < 16 ∧ 9 < 16 ∧ (9 = 0 ∨ 8 < 9)) ∧
    sea_read_chunk dqtZero 1 1 (1 :: (16 * 1 + 9) :: 7 :: 0x5A :: []) = .ub :=
  ⟨⟨by decide, by decide, Or.inr (by decide)⟩,
    C4_bad_residual_bits_is_ub dqtZero 1 1 1 9 7 [] (by decide) (by decide) (Or.inr (by decide))⟩

/-! ## C10: scale_factor_frames = 0 -/

theorem read_lms_channel_zeros (rest : List Nat) :
    read_lms_channel (List.replicate 16 0 ++ rest) = .ok (⟨0, 0, 0, 0, 0, 0, 0, 0⟩, rest) := by
  rfl

theorem readLMSseeds_zeros (ch : Nat) (rest : List Nat) :
    readLMSseeds ch (List.replicate (16 * ch) 0 ++ rest) =
      .ok (List.replicate ch ⟨0, 0, 0, 0, 0, 0, 0, 0⟩, rest) := by
  induction ch with
  | zero => rfl
  | succ n ih =>
    have hsplit : List.replicate (16 * (n + 1)) (0 : Nat) =
        List.replicate 16 0 ++ List.replicate (16 * n) 0 := by
      rw [← List.replicate_add]
      congr 1
      ring
    rw [readLMSseeds, hsplit, List.append_assoc]
    simp only [bind, CResult.bind, read_lms_channel_zeros, ih]
    rfl

/-- C10: for every chunk whose scale_factor_frames byte is 0 and which passes
the type and reserved byte checks (with residual_bits in [1,8] so that the
table build returns), sea_read_chunk reaches the division by zero in
div_ceil(frames_in_this_chunk, scale_factor_frames): no validation rejects
the zero byte first. Stated with all-zero LMS seed bytes and arbitrary
following bytes. -/
theorem C10_sff_zero_hits_div_zero (v : Nat → Nat → Int) (ch fr sfb rb : Nat)
    (rest : List Nat) (hsfb : sfb < 16) (hrb1 : 1 ≤ rb) (hrb8 : rb ≤ 8) :
    sea_read_chunk v ch fr
      (1 :: (16 * sfb + rb) :: 0 :: 0x5A :: (List.replicate (16 * ch) 0 ++ rest)) =
      .divZero := by
  have hsr : 16 * sfb + rb < 256 := by omega
  have hmod : (16 * sfb + rb) % 256 = 16 * sfb + rb := Nat.mod_eq_of_lt hsr
  have hshift : (16 * sfb + rb) >>> 4 = sfb := by
    rw [Nat.shiftRight_eq_div_pow]
    omega
  have hand : (16 * sfb + rb) &&& 15 = rb := by
    have h := Nat.and_pow_two_sub_one_eq_mod (16 * sfb + rb) 4
    norm_num at h
    rw [h]
    omega
  have halloc : alloc_prepare_dqt v sfb rb =
      .ok (dqtTable v sfb rb, 2 ^ (rb - 1) * 2) := by
    unfold alloc_prepare_dqt
    rw [if_neg (by omega)]
  have hdiv : div_ceil fr 0 = .divZero := rfl
  simp [sea_read_chunk, read_u8, bind, CResult.bind, hmod, hshift, hand, halloc,
    readLMSseeds_zeros, hdiv]

theorem C10_witness :
    (1 < 16 ∧ 1 ≤ 1 ∧ 1 ≤ 8) ∧
    sea_read_chunk dqtZero 1 5
      (1 :: (16 * 1 + 1) :: 0 :: 0x5A :: (List.replicate (16 * 1) 0 ++ [])) = .divZero :=
  ⟨⟨by decide, by decide, by decide⟩,
    C10_sff_zero_hits_div_zero dqtZero 1 5 1 1 [] (by decide) (by decide) (by decide)⟩

/-! ## Loop-shaped equations for the budgeted recursions -/

theorem unpackWhileF_irrel (bs v : Nat) :
    ∀ f1 f2 st, st ≤ f1 → st ≤ f2 → unpackWhileF bs v f1 st = unpackWhileF bs v f2 st := by
  intro f1
  induction f1 with
  | zero =>
    intro f2 st h1 h2
    have hst : st = 0 := by omega
    subst hst
    cases f2 with
    | zero => rfl
    | succ m =>
      simp only [unpackWhileF]
      rw [if_neg (by omega)]
  | succ k ih =>
    intro f2 st h1 h2
    cases f2 with
    | zero =>
      have hst : st = 0 := by omega
      subst hst
      simp only [unpackWhileF]
      rw [if_neg (by omega)]
    | succ m =>
      by_cases hc : 0 < bs ∧ bs ≤ st
      · simp only [unpackWhileF, if_pos hc]
        rw [ih m (st - bs) (by omega) (by omega)]
      · simp only [unpackWhileF, if_neg hc]

theorem unpackWhile_eq (bs v st : Nat) :
    unpackWhile bs v st =
      if 0 < bs ∧ bs ≤ st then
        (((v >>> (st - bs)) &&& MASKS.getD bs 0) :: (unpackWhile bs v (st - bs)).1,
          (unpackWhile bs v (st - bs)).2)
      else ([], st) := by
  unfold unpackWhile
  cases st with
  | zero =>
    simp only [unpackWhileF]
    rw [if_neg (by omega)]
  | succ k =>
    by_cases hc : 0 < bs ∧ bs ≤ k + 1
    · simp only [unpackWhileF, if_pos hc]
      rw [unpackWhileF_irrel bs v k (k + 1 - bs) (k + 1 - bs) (by omega) (by omega)]
    · simp only [unpackWhileF, if_neg hc]

theorem specGroupValsF_irrel (n : Nat) :
    ∀ f1 f2 (bits : List Bool), bits.length ≤ f1 → bits.length ≤ f2 →
      specGroupValsF n f1 bits = specGroupValsF n f2 bits := by
  intro f1
  induction f1 with
  | zero =>
    intro f2 bits h1 h2
    have hb : bits = [] := by
      cases bits with
      | nil => rfl
      | cons x xs => simp at h1
    subst hb
    cases f2 with
    | zero => rfl
    | succ m =>
      simp only [specGroupValsF]
      rw [if_neg (by rintro ⟨hp, hq⟩; simp at hq; omega)]
  | succ k ih =>
    intro f2 bits h1 h2
    cases f2 with
    | zero =>
      have hb : bits = [] := by
        cases bits with
        | nil => rfl
        | cons x xs => simp at h2
      subst hb
      simp only [specGroupValsF]
      rw [if_neg (by rintro ⟨hp, hq⟩; simp at hq; omega)]
    | succ m =>
      by_cases hc : 0 < n ∧ n ≤ bits.length
      · simp only [specGroupValsF, if_pos hc]
        rw [ih m (bits.drop n) (by simp; omega) (by simp; omega)]
      · simp only [specGroupValsF, if_neg hc]

theorem specGroupVals_eq (n : Nat) (bits : List Bool) :
    specGroupVals n bits =
      if 0 < n ∧ n ≤ bits.length then
        valOfBits (bits.take n) :: specGroupVals n (bits.drop n)
      else [] := by
  unfold specGroupVals
  cases hb : bits.length with
  | zero =>
    simp only [specGroupValsF]
    rw [if_neg (by omega)]
  | succ k =>
    by_cases hc : 0 < n ∧ n ≤ bits.length
    · simp only [specGroupValsF, if_pos (hb ▸ hc)]
      rw [specGroupValsF_irrel n k (bits.drop n).length (bits.drop n) (by simp; omega)
        (le_refl _)]
      rw [if_pos hc]
    · simp only [specGroupValsF, if_neg (hb ▸ hc)]
      rw [if_neg hc]

/-! ## C2: emitted sample count -/

/-- C2: the emit loop has no break on the global frame index. On a stream
with total_frames = 3, channels = 1, frames_per_chunk = 3 and a single chunk
with scale_factor_frames = 2 (which does not divide 3), the decoder emits
ceil(3/2) * 2 = 4 samples instead of total_frames * channels = 3: the fourth
sample overruns a caller buffer sized total_frames * channels (demo.c
allocates exactly that). Evaluated here with the zero table; the count does
not depend on the table entries. -/
theorem C2_emit_count_overrun :
    sea_decode dqtZero
      ([0x73, 0x65, 0x61, 0x63, 1, 1, 0, 0, 3, 0, 0x40, 0x1F, 0, 0, 3, 0, 0, 0, 0, 0, 0, 0] ++
        ([1, 0x11, 2, 0x5A] ++ List.replicate 16 0 ++ [0, 0])) =
      .ok (8000, 1, 3, [0, 0, 0, 0]) ∧
    ([(0 : Int), 0, 0, 0].length ≠ 3 * 1) := by
  constructor
  · decide
  · decide

/-! ## C5: bit unpacker correctness -/

theorem bitsMSB_length (n v : Nat) : (bitsMSB n v).length = n := by
  simp [bitsMSB]

theorem bitsMSB_succ (n v : Nat) : bitsMSB (n + 1) v = v.testBit n :: bitsMSB n v := by
  unfold bitsMSB
  rw [List.range_succ_eq_map]
  simp only [List.map_cons, List.map_map, Nat.sub_zero, Nat.add_sub_cancel]
  congr 1
  apply List.map_congr_left
  intro i hi
  simp only [Function.comp]
  congr 1
  omega

theorem valOfBits_lt (bits : List Bool) : valOfBits bits < 2 ^ bits.length := by
  induction bits with
  | nil => simp [valOfBits]
  | cons b rest ih =>
    simp only [valOfBits, List.length_cons]
    have h2 : 2 ^ (rest.length + 1) = 2 * 2 ^ rest.length := by ring
    split <;> omega

theorem valOfBits_bitsMSB (n v : Nat) : valOfBits (bitsMSB n v) = v % 2 ^ n := by
  induction n with
  | zero => simp [bitsMSB, valOfBits, Nat.mod_one]
  | succ k ih =>
    rw [bitsMSB_succ]
    simp only [valOfBits, bitsMSB_length, ih]
    have hm : v % 2 ^ (k + 1) = v % 2 ^ k + 2 ^ k * (v / 2 ^ k % 2) := by
      rw [pow_succ]
      exact Nat.mod_mul
    have ht : v.testBit k = decide (v / 2 ^ k % 2 = 1) := Nat.testBit_to_div_mod
    rcases Nat.mod_two_eq_zero_or_one (v / 2 ^ k) with h | h
    · rw [h, Nat.mul_zero, Nat.add_zero] at hm
      rw [ht, h, hm]
      norm_num
    · rw [h, Nat.mul_one] at hm
      rw [ht, h, hm]
      norm_num
      omega

theorem bitsMSB_mod (n v : Nat) : bitsMSB n (v % 2 ^ n) = bitsMSB n v := by
  unfold bitsMSB
  apply List.map_congr_left
  intro i hi
  rw [List.mem_range] at hi
  rw [Nat.testBit_mod_two_pow]
  have : n - 1 - i < n := by omega
  simp [this]

theorem bitsMSB_add (m k v : Nat) :
    bitsMSB (m + k) v = bitsMSB m (v >>> k) ++ bitsMSB k v := by
  induction m with
  | zero => simp [bitsMSB]
  | succ j ih =>
    have h1 : j + 1 + k = (j + k) + 1 := by omega
    rw [h1, bitsMSB_succ, ih, bitsMSB_succ]
    simp only [List.cons_append]
    congr 1
    rw [Nat.testBit_shiftRight]
    congr 1
    omega

theorem bitsMSB_lor (st c b : Nat) (hb : b < 256) :
    bitsMSB (st + 8) ((c <<< 8) ||| b) = bitsMSB st c ++ bitsMSB 8 b := by
  rw [bitsMSB_add st 8 ((c <<< 8) ||| b)]
  congr 1
  · unfold bitsMSB
    apply List.map_congr_left
    intro i hi
    rw [List.mem_range] at hi
    rw [Nat.testBit_shiftRight, Nat.testBit_or, Nat.testBit_shiftLeft]
    have hble : b < 2 ^ (8 + (st - 1 - i)) := by
      have h1 : b < 2 ^ 8 := by omega
      have h2 : (2 : Nat) ^ 8 ≤ 2 ^ (8 + (st - 1 - i)) := Nat.pow_le_pow_right (by omega) (by omega)
      omega
    rw [Nat.testBit_lt_two_pow hble]
    simp
  · unfold bitsMSB
    apply List.map_congr_left
    intro i hi
    rw [List.mem_range] at hi
    rw [Nat.testBit_or, Nat.testBit_shiftLeft]
    have h8 : ¬(8 ≤ 8 - 1 - i) := by omega
    simp [h8]

theorem bitsMSB_valOfBits (g : List Bool) : bitsMSB g.length (valOfBits g) = g := by
  induction g with
  | nil => simp [bitsMSB]
  | cons b rest ih =>
    simp only [List.length_cons, valOfBits]
    rw [bitsMSB_succ]
    have hr := valOfBits_lt rest
    congr 1
    · rw [Nat.testBit_to_div_mod]
      have hd : ((if b then 2 ^ rest.length else 0) + valOfBits rest) / 2 ^ rest.length =
          if b then 1 else 0 := by
        have hp : 0 < 2 ^ rest.length := Nat.pos_pow_of_pos _ (by omega)
        split
        · rw [Nat.add_comm, Nat.add_div_right _ hp, Nat.div_eq_of_lt hr]
        · simp [Nat.div_eq_of_lt hr]
      rw [hd]
      cases b <;> simp
    · have hmod : ((if b then 2 ^ rest.length else 0) + valOfBits rest) % 2 ^ rest.length =
          valOfBits rest := by
        split
        · rw [Nat.add_comm, Nat.add_mod_right, Nat.mod_eq_of_lt hr]
        · rw [Nat.zero_add]
          exact Nat.mod_eq_of_lt hr
      rw [← bitsMSB_mod, hmod, ih]

theorem specGroupVals_group (n : Nat) (g rest : List Bool) (hn : 0 < n)
    (hg : g.length = n) :
    specGroupVals n (g ++ rest) = valOfBits g :: specGroupVals n rest := by
  rw [specGroupVals_eq]
  rw [if_pos ⟨hn, by simp [hg]⟩]
  rw [List.take_left' hg, List.drop_left' hg]

theorem specGroupVals_length (n : Nat) (hn : 0 < n) (bits : List Bool) :
    (specGroupVals n bits).length = bits.length / n := by
  suffices h : ∀ (N : Nat) (l : List Bool), l.length = N → (specGroupVals n l).length = l.length / n by
    exact h bits.length bits rfl
  intro N
  induction N using Nat.strong_induction_on with
  | _ N ih =>
    intro bits hL
    rw [specGroupVals_eq]
    by_cases hc : 0 < n ∧ n ≤ bits.length
    · rw [if_pos hc]
      simp only [List.length_cons]
      rw [ih (bits.drop n).length (by simp; omega) (bits.drop n) rfl]
      simp only [List.length_drop]
      rw [Nat.div_eq_sub_div hn hc.2]
    · rw [if_neg hc]
      simp only [List.length_nil]
      rw [Nat.div_eq_of_lt (by omega)]

theorem MASKS_getD (bs : Nat) (h : bs ≤ 8) : MASKS.getD bs 0 = 2 ^ bs - 1 := by
  interval_cases bs <;> rfl

theorem unpackWhile_snd (bs v : Nat) (hbs : 0 < bs) (st : Nat) :
    (unpackWhile bs v st).2 = st % bs := by
  induction st using Nat.strong_induction_on with
  | _ st ih =>
    rw [unpackWhile_eq]
    by_cases hc : 0 < bs ∧ bs ≤ st
    · rw [if_pos hc]
      simp only
      rw [ih (st - bs) (by omega)]
      rw [← Nat.mod_eq_sub_mod hc.2]
    · rw [if_neg hc]
      simp only
      rw [Nat.mod_eq_of_lt (by omega)]

theorem unpackWhile_spec (bs v : Nat) (hbs1 : 0 < bs) (hbs8 : bs ≤ 8) (st : Nat)
    (tail : List Bool) :
    specGroupVals bs (bitsMSB st v ++ tail) =
      (unpackWhile bs v st).1 ++ specGroupVals bs (bitsMSB (st % bs) v ++ tail) := by
  induction st using Nat.strong_induction_on generalizing tail with
  | _ st ih =>
    by_cases hc : bs ≤ st
    · have hsplit : bitsMSB st v = bitsMSB bs (v >>> (st - bs)) ++ bitsMSB (st - bs) v := by
        have h := bitsMSB_add bs (st - bs) v
        rw [show bs + (st - bs) = st by omega] at h
        exact h
      rw [hsplit, List.append_assoc,
        specGroupVals_group bs _ _ hbs1 (bitsMSB_length bs (v >>> (st - bs)))]
      rw [unpackWhile_eq, if_pos ⟨hbs1, hc⟩]
      simp only [List.cons_append]
      congr 1
      · rw [valOfBits_bitsMSB, MASKS_getD bs hbs8, Nat.and_pow_two_sub_one_eq_mod]
      · rw [ih (st - bs) (by omega) tail]
        rw [← Nat.mod_eq_sub_mod hc]
    · rw [unpackWhile_eq, if_neg (by omega)]
      simp only [List.nil_append]
      rw [Nat.mod_eq_of_lt (by omega)]

theorem bitsOfBytes_cons (b : Nat) (rest : List Nat) :
    bitsOfBytes (b :: rest) = bitsMSB 8 b ++ bitsOfBytes rest := by
  simp [bitsOfBytes]

theorem bitsOfBytes_length (bytes : List Nat) : (bitsOfBytes bytes).length = 8 * bytes.length := by
  induction bytes with
  | nil => rfl
  | cons b rest ih =>
    rw [bitsOfBytes_cons]
    simp only [List.length_append, bitsMSB_length, ih, List.length_cons]
    ring

theorem unpackGo_spec (bs : Nat) (hbs1 : 0 < bs) (hbs8 : bs ≤ 8) (bytes : List Nat) :
    ∀ st carry, st < bs →
      unpackGo bs bytes st carry = specGroupVals bs (bitsMSB st carry ++ bitsOfBytes bytes) := by
  induction bytes with
  | nil =>
    intro st carry hst
    show [] = specGroupVals bs (bitsMSB st carry ++ bitsOfBytes [])
    rw [specGroupVals_eq, if_neg]
    rintro ⟨h1, h2⟩
    simp only [List.length_append, bitsMSB_length] at h2
    have : (bitsOfBytes []).length = 0 := rfl
    omega
  | cons b rest ih =>
    intro st carry hst
    show (unpackWhile bs ((carry <<< 8) ||| (b % 256)) (st + 8)).1 ++
        unpackGo bs rest (unpackWhile bs ((carry <<< 8) ||| (b % 256)) (st + 8)).2
          (((carry <<< 8) ||| (b % 256)) &&&
            ((1 <<< (unpackWhile bs ((carry <<< 8) ||| (b % 256)) (st + 8)).2) - 1)) =
      specGroupVals bs (bitsMSB st carry ++ bitsOfBytes (b :: rest))
    have hsnd := unpackWhile_snd bs ((carry <<< 8) ||| (b % 256)) hbs1 (st + 8)
    rw [hsnd]
    have hmod8 : (st + 8) % bs < bs := Nat.mod_lt _ hbs1
    have hcarry : ((carry <<< 8) ||| (b % 256)) &&& ((1 <<< ((st + 8) % bs)) - 1) =
        ((carry <<< 8) ||| (b % 256)) % 2 ^ ((st + 8) % bs) := by
      have h1 : (1 : Nat) <<< ((st + 8) % bs) = 2 ^ ((st + 8) % bs) := by
        rw [Nat.shiftLeft_eq, Nat.one_mul]
      rw [h1, Nat.and_pow_two_sub_one_eq_mod]
    rw [hcarry]
    rw [ih ((st + 8) % bs) _ hmod8]
    rw [bitsMSB_mod]
    rw [bitsOfBytes_cons]
    rw [show bitsMSB st carry ++ (bitsMSB 8 b ++ bitsOfBytes rest) =
      (bitsMSB st carry ++ bitsMSB 8 b) ++ bitsOfBytes rest from by rw [List.append_assoc]]
    rw [show bitsMSB 8 b = bitsMSB 8 (b % 256) from (bitsMSB_mod 8 b).symm]
    rw [← bitsMSB_lor st carry (b % 256) (Nat.mod_lt _ (by omega))]
    rw [unpackWhile_spec bs _ hbs1 hbs8 (st + 8) (bitsOfBytes rest)]

theorem bitsOfBytes_specGroupVals8 (B : List Bool) (h : B.length % 8 = 0) :
    bitsOfBytes (specGroupVals 8 B) = B := by
  suffices hs : ∀ (N : Nat) (l : List Bool), l.length = N → l.length % 8 = 0 →
      bitsOfBytes (specGroupVals 8 l) = l by
    exact hs B.length B rfl h
  intro N
  induction N using Nat.strong_induction_on with
  | _ N ih =>
    intro l hL h8
    rw [specGroupVals_eq]
    by_cases hc : 0 < 8 ∧ 8 ≤ l.length
    · rw [if_pos hc]
      rw [bitsOfBytes_cons]
      have htake : (l.take 8).length = 8 := by simp; omega
      have hbm : bitsMSB 8 (valOfBits (l.take 8)) = l.take 8 := by
        have h0 := bitsMSB_valOfBits (l.take 8)
        rw [htake] at h0
        exact h0
      rw [hbm]
      rw [ih (l.drop 8).length (by simp; omega) (l.drop 8) rfl (by simp; omega)]
      exact List.take_append_drop 8 l
    · rw [if_neg hc]
      have hlen : l.length = 0 := by omega
      have hnil : l = [] := List.eq_nil_of_length_eq_zero hlen
      subst hnil
      rfl

theorem specGroupVals_vals (bs : Nat) (hbs : 0 < bs) (vals : List Nat) (pad : List Bool)
    (hv : ∀ x ∈ vals, x < 2 ^ bs) :
    specGroupVals bs ((vals.flatMap fun x => bitsMSB bs x) ++ pad) =
      vals ++ specGroupVals bs pad := by
  induction vals with
  | nil => simp
  | cons x xs ih =>
    rw [List.flatMap_cons, List.append_assoc]
    rw [specGroupVals_group bs _ _ hbs (bitsMSB_length bs x)]
    rw [valOfBits_bitsMSB]
    rw [Nat.mod_eq_of_lt (hv x (by simp))]
    rw [ih (fun y hy => hv y (by simp [hy]))]
    rfl

/-- C5: the bit unpacker of sea.h agrees with the MSB-first bitstream
semantics of the spec: for bit_size in [1,8] it emits exactly
floor(byte_count * 8 / bit_size) values, namely the consecutive bit_size-bit
groups of the input bitstream read MSB-first; consequently packing any
sequence of values below 2^bit_size MSB-first into bytes (zero padding the
final byte) and unpacking returns the original sequence followed only by
padding-derived values. -/
theorem C5_unpack_bits_correct (bs : Nat) (bytes : List Nat) (vals : List Nat)
    (hbs1 : 1 ≤ bs) (hbs8 : bs ≤ 8) (hvals : ∀ x ∈ vals, x < 2 ^ bs) :
    sea_read_unpack_bits bs bytes = specGroupVals bs (bitsOfBytes bytes) ∧
    (sea_read_unpack_bits bs bytes).length = bytes.length * 8 / bs ∧
    (sea_read_unpack_bits bs (spec_pack_bits bs vals)).take vals.length = vals := by
  have hmain : ∀ bytes' : List Nat,
      sea_read_unpack_bits bs bytes' = specGroupVals bs (bitsOfBytes bytes') := by
    intro bytes'
    unfold sea_read_unpack_bits
    have h := unpackGo_spec bs hbs1 hbs8 bytes' 0 0 hbs1
    rw [h]
    rfl
  refine ⟨hmain bytes, ?_, ?_⟩
  · rw [hmain bytes, specGroupVals_length bs hbs1, bitsOfBytes_length]
    rw [Nat.mul_comm]
  · rw [hmain (spec_pack_bits bs vals)]
    unfold spec_pack_bits
    rw [bitsOfBytes_specGroupVals8 _ (by
      simp only [List.length_append, List.length_replicate]
      omega)]
    rw [specGroupVals_vals bs hbs1 vals _ hvals]
    rw [List.take_left]

theorem C5_witness :
    (1 ≤ 3 ∧ 3 ≤ 8 ∧ ∀ x ∈ [1, 2, 3], x < 2 ^ 3) ∧
    (sea_read_unpack_bits 3 [0xB6, 0x6D] = specGroupVals 3 (bitsOfBytes [0xB6, 0x6D]) ∧
      (sea_read_unpack_bits 3 [0xB6, 0x6D]).length = [0xB6, 0x6D].length * 8 / 3 ∧
      (sea_read_unpack_bits 3 (spec_pack_bits 3 [1, 2, 3])).take [1, 2, 3].length = [1, 2, 3]) :=
  ⟨by decide, C5_unpack_bits_correct 3 [0xB6, 0x6D] [1, 2, 3] (by decide) (by decide) (by decide)⟩
